import Mathlib

/-!
Verification of the speech-synchronization core of the `next_pdf_player`
repository.  The TypeScript source is shallowly embedded: strings are
modelled as `List Char`, JavaScript numbers as `ℤ`/`ℚ` where the source
computes on integers, and as `ℝ` where the source uses `Math.pow` with
fractional exponents.  The React component's mutable refs and state hooks
are modelled as an explicit `Session` record with pure transition
functions.
-/

namespace PdfPlayer

/-- Whitespace test modelling the JavaScript `\s` character class (and the
characters removed by `String.prototype.trim`); the common ASCII whitespace
characters plus NBSP are covered. -/
def isSpace (c : Char) : Bool :=
  c == ' ' || c == '\t' || c == '\n' || c == '\r' || c == '\x0b' || c == '\x0c' || c == ' '

/-- Sentence-ending punctuation used by the lookbehind in `chunkSentences`. -/
def isSentEnd (c : Char) : Bool :=
  c == '.' || c == '!' || c == '?'

/-- Model of `String.prototype.trim`: drop whitespace from both ends. -/
def jsTrim (s : List Char) : List Char :=
  ((s.dropWhile isSpace).reverse.dropWhile isSpace).reverse

/-- Model of `plainText.split(" ")` (JavaScript `String.split` with a
single-space separator): the list of (possibly empty) fragments between
occurrences of `' '`.  Never returns the empty list; on `[]` it returns
`[[]]`, exactly as `"".split(" ")` returns `[""]`. -/
def splitOnSpace : List Char → List (List Char)
  | [] => [[]]
  | c :: cs =>
    match splitOnSpace cs with
    | [] => [[]]
    | w :: ws => if c = ' ' then [] :: w :: ws else (c :: w) :: ws

/-- The offset-accumulation loop of the tokenizer (`Reader.tsx`,
`useMemo` body): `offsets.push(pos); pos += w.length + 1`. -/
def wordOffsetsAux : List (List Char) → Int → List Int
  | [], _ => []
  | w :: ws, pos => pos :: wordOffsetsAux ws (pos + w.length + 1)

/-- Offset Index of a word list, starting at position 0. -/
def wordOffsets (ws : List (List Char)) : List Int :=
  wordOffsetsAux ws 0

/-- Specification-side definition: join a word list with exactly one
separating space (the Plain Text layout the Offset Index is measured
against). -/
def joinWords : List (List Char) → List Char
  | [] => []
  | [w] => w
  | w :: ws => w ++ ' ' :: joinWords ws

/-- One global-multiline regex-replace pass for `/^M+\s+/gm` (when
`rep = true`, e.g. `#+`) or `/^M\s+/gm` (when `rep = false`, e.g. `>`
or `•`), replacing matches by the empty string.  `atStart` tracks whether
the current position is a line start of the original string (position 0 or
preceded by a newline); after a match it is determined by the last
whitespace character the match consumed. -/
def stripMarkGo (mark : Char) (rep : Bool) (atStart : Bool) : List Char → List Char
  | [] => []
  | c :: cs =>
    if atStart then
      let ms := (c :: cs).takeWhile (fun x => x == mark)
      let rest := (c :: cs).dropWhile (fun x => x == mark)
      let sps := rest.takeWhile isSpace
      if h : (if rep then ms ≠ [] else ms.length = 1) ∧ sps ≠ [] then
        stripMarkGo mark rep (sps.getLast? == some '\n') (rest.dropWhile isSpace)
      else
        c :: stripMarkGo mark rep (c == '\n') cs
    else
      c :: stripMarkGo mark rep (c == '\n') cs
termination_by s => s.length
decreasing_by
  · have hdw : ∀ (q : Char → Bool) (l : List Char),
        (l.dropWhile q).length ≤ l.length := by
      intro q l
      induction l with
      | nil => simp
      | cons a as ih =>
        by_cases hq : q a <;> simp [List.dropWhile_cons, hq] <;> omega
    have hms : (c :: cs).takeWhile (fun x => x == mark) ++
        (c :: cs).dropWhile (fun x => x == mark) = c :: cs :=
      List.takeWhile_append_dropWhile _ _
    have h1 : ((c :: cs).takeWhile (fun x => x == mark)).length +
        ((c :: cs).dropWhile (fun x => x == mark)).length = cs.length + 1 := by
      have h1a := congrArg List.length hms
      rw [List.length_append, List.length_cons] at h1a
      exact h1a
    have h2 : 1 ≤ ((c :: cs).takeWhile (fun x => x == mark)).length := by
      rcases h with ⟨hm, _⟩
      have hm2 : (if rep then (c :: cs).takeWhile (fun x => x == mark) ≠ []
          else ((c :: cs).takeWhile (fun x => x == mark)).length = 1) := hm
      cases rep with
      | true =>
        simp at hm2
        rw [List.takeWhile_cons]
        simp [hm2]
      | false => simp at hm2; omega
    have h3 : (((c :: cs).dropWhile (fun x => x == mark)).dropWhile isSpace).length ≤
        ((c :: cs).dropWhile (fun x => x == mark)).length := hdw _ _
    simp only [List.length_cons]
    omega
  · simp
  · simp

/-- Model of `text.replace(/^#+\s+/gm, '')`. -/
def stripHeading (s : List Char) : List Char :=
  stripMarkGo '#' true true s

/-- Model of `text.replace(/^>\s+/gm, '')`. -/
def stripQuote (s : List Char) : List Char :=
  stripMarkGo '>' false true s

/-- Model of `text.replace(/^•\s+/gm, '')`. -/
def stripBullet (s : List Char) : List Char :=
  stripMarkGo '•' false true s

/-- Model of `text.replace(/^---\n|\n---$/g, '')` (no multiline flag, so the
anchors refer to the whole string; the scan is left-to-right and
non-overlapping, so a leading `---\n` is removed first and the trailing
`\n---` is then looked for in the remainder). -/
def stripSidebar (s : List Char) : List Char :=
  let t := if s.take 4 = ['-', '-', '-', '\n'] then s.drop 4 else s
  if 4 ≤ t.length ∧ t.drop (t.length - 4) = ['\n', '-', '-', '-'] then
    t.take (t.length - 4)
  else t

/-- Model of `text.replace(/\n\n/g, ' ')`: leftmost, non-overlapping. -/
def collapseDoubleNewline : List Char → List Char
  | '\n' :: '\n' :: rest => ' ' :: collapseDoubleNewline rest
  | c :: rest => c :: collapseDoubleNewline rest
  | [] => []

/-- Model of `text.replace(/\s+/g, ' ')`: each maximal whitespace run is
replaced by a single space.  `prevWs` records whether the previous
character was part of a run already replaced. -/
def collapseWsGo (prevWs : Bool) : List Char → List Char
  | [] => []
  | c :: cs =>
    if isSpace c then
      if prevWs then collapseWsGo true cs else ' ' :: collapseWsGo true cs
    else c :: collapseWsGo false cs

/-- The Plain Text derivation of `Reader.tsx` (`useMemo` body): strip
heading/quote/bullet markers and sidebar delimiters, collapse double
newlines and whitespace runs, and trim. -/
def plainOf (text : List Char) : List Char :=
  jsTrim (collapseWsGo false (collapseDoubleNewline
    (stripSidebar (stripBullet (stripQuote (stripHeading text))))))

/-- Model of `text.split(/(?<=[\.\!\?])\s+/)`: split at every maximal
whitespace run whose preceding character is sentence-ending punctuation.
`prev` is the character preceding the current position (a dummy
non-sentence character at the start of the string). -/
def splitSentencesAux (prev : Char) : List Char → List (List Char)
  | [] => [[]]
  | c :: cs =>
    if isSentEnd prev ∧ isSpace c then
      [] :: splitSentencesAux c (cs.dropWhile isSpace)
    else
      match splitSentencesAux c cs with
      | [] => [[]]
      | w :: ws => (c :: w) :: ws
termination_by s => s.length
decreasing_by
  · have hdw : ∀ (q : Char → Bool) (l : List Char),
        (l.dropWhile q).length ≤ l.length := by
      intro q l
      induction l with
      | nil => simp
      | cons a as ih =>
        by_cases hq : q a <;> simp [List.dropWhile_cons, hq] <;> omega
    have := hdw isSpace cs
    simp only [List.length_cons]
    omega
  · simp

/-- The sentence-fragment list of `chunkSentences` (`const bits = ...`). -/
def splitSentences (s : List Char) : List (List Char) :=
  splitSentencesAux '\x00' s

/-- The greedy accumulation loop of `chunkSentences`, including the final
`if (cur.trim()) chunks.push(cur.trim())`.  `cur` is the running buffer. -/
def chunkGo (maxLen : Nat) (cur : List Char) : List (List Char) → List (List Char)
  | [] => if jsTrim cur ≠ [] then [jsTrim cur] else []
  | b :: rest =>
    if maxLen < (jsTrim (cur ++ ' ' :: b)).length then
      (if jsTrim cur ≠ [] then [jsTrim cur] else []) ++ chunkGo maxLen b rest
    else
      chunkGo maxLen (jsTrim (cur ++ ' ' :: b)) rest

/-- Model of `chunkSentences(text, maxLen)` from `Reader.tsx`. -/
def chunkSentences (maxLen : Nat) (text : List Char) : List (List Char) :=
  let bits := splitSentences text
  let chunks := chunkGo maxLen [] bits
  if chunks ≠ [] then chunks else [text]

/-- The binary-search loop of `findWordIndexFromChar` (`Reader.tsx`):
`while (lo <= hi) { mid = (lo+hi) >> 1; ... }`.  `>> 1` on the
non-negative in-range index sums is floor division by two. -/
def findGo (offs : List Int) (g : Int) (lo hi ans : Int) : Int :=
  if h : lo ≤ hi then
    let mid := (lo + hi) / 2
    if offs.getD mid.toNat 0 ≤ g then findGo offs g (mid + 1) hi mid
    else findGo offs g lo (mid - 1) ans
  else ans
termination_by (hi + 1 - lo).toNat
decreasing_by
  · omega
  · omega

/-- Model of `findWordIndexFromChar(globalCharIdx)` over an offsets list. -/
def findWordIndexFromChar (offs : List Int) (g : Int) : Int :=
  findGo offs g 0 (offs.length - 1) 0

/-- Page estimate of the page-sync effect (the density-adjusted Reader
variant): `wordPosition = currentWordIdx / words.length`,
`exponent = 0.5 * densityFactor`,
`nonLinearPosition = Math.pow(wordPosition, exponent)`,
`estimatedPage = Math.max(startPage, Math.min(endPage,
Math.floor(startPage + nonLinearPosition * totalPages)))`.
JavaScript numbers are idealised as real numbers. -/
noncomputable def estimatePage (startPage endPage : ℤ) (wordCount : ℕ)
    (wordIndex : ℕ) (densityFactor : ℝ) : ℤ :=
  let totalPages : ℤ := endPage - startPage + 1
  let wordPosition : ℝ := (wordIndex : ℝ) / (wordCount : ℝ)
  let exponent : ℝ := 0.5 * densityFactor
  let nonLinearPosition : ℝ := wordPosition ^ exponent
  max startPage (min endPage ⌊(startPage : ℝ) + nonLinearPosition * (totalPages : ℝ)⌋)

/-- Word-index estimate of `handlePageChange` (the density-adjusted Reader
variant): `relativePosition = Math.max(0, Math.min(1, (page - startPage) /
totalPages))`, `inverseExponent = 2.0 / densityFactor`,
`nonLinearPosition = Math.pow(relativePosition, inverseExponent)`,
`estimatedWordIdx = Math.floor(nonLinearPosition * words.length)`, then
bounded by `Math.max(0, Math.min(estimatedWordIdx, words.length - 1))`. -/
noncomputable def estimateWordIndex (startPage endPage : ℤ) (wordCount : ℕ)
    (page : ℤ) (densityFactor : ℝ) : ℤ :=
  let totalPages : ℤ := endPage - startPage + 1
  let relativePosition : ℝ :=
    max 0 (min 1 (((page - startPage : ℤ) : ℝ) / (totalPages : ℝ)))
  let inverseExponent : ℝ := 2.0 / densityFactor
  let nonLinearPosition : ℝ := relativePosition ^ inverseExponent
  max 0 (min ⌊nonLinearPosition * (wordCount : ℝ)⌋ ((wordCount : ℤ) - 1))

/-- One utterance descriptor (`SpeechSynthesisUtterance` fields the code
sets: text, voice, rate, pitch). -/
structure Utterance where
  text : List Char
  voice : Option (List Char)
  rate : ℚ
  pitch : ℚ
deriving DecidableEq

/-- The Playback Session state of the Reader component: the `playing`,
`paused`, `currentWordIdx`, `currentPage` state hooks and the
`charBaseRef`, `queueRef`, `pausePositionRef`, `remainingChunksRef`,
`abortRef` refs. -/
structure Session where
  playing : Bool
  paused : Bool
  currentWordIdx : Int
  charBase : Int
  queue : List Utterance
  checkpoint : Option (Int × Int)
  remainingChunks : List (List Char)
  abortFlag : Bool
  currentPage : Int
deriving DecidableEq

/-- Initial component state: not playing, no word highlighted, page 1. -/
def initialSession : Session :=
  { playing := false
    paused := false
    currentWordIdx := -1
    charBase := 0
    queue := []
    checkpoint := none
    remainingChunks := []
    abortFlag := false
    currentPage := 1 }

/-- Model of `voices.find(v => v.name === voiceName) || voices[0]`. -/
def chooseVoice (voices : List (List Char)) (voiceName : List Char) :
    Option (List Char) :=
  match voices.find? (fun v => v == voiceName) with
  | some v => some v
  | none => voices.head?

/-- Build the utterance queue from a chunk list (`new
SpeechSynthesisUtterance(chunk)` with voice, rate and pitch applied). -/
def mkQueue (chunks : List (List Char)) (voice : Option (List Char))
    (rate pitch : ℚ) : List Utterance :=
  chunks.map (fun c => { text := c, voice := voice, rate := rate, pitch := pitch })

/-- Model of `stopAll()`: set the abort flag, cancel, clear the queue and
all positions and the checkpoint.  (`currentPage` is not touched.) -/
def stopAll (s : Session) : Session :=
  { s with
    abortFlag := true
    playing := false
    paused := false
    queue := []
    charBase := 0
    currentWordIdx := -1
    checkpoint := none
    remainingChunks := [] }

/-- The fresh-start path of `play()`: `stopAll(); abortRef.current = false;`
then chunk the Plain Text, build the queue and submit it.  Returns the new
session and the list of utterances submitted to the backend. -/
def playFresh (plainText : List Char) (voices : List (List Char))
    (voiceName : List Char) (rate pitch : ℚ) (s : Session) :
    Session × List Utterance :=
  let s1 := { stopAll s with abortFlag := false }
  let chunks := chunkSentences 1200 plainText
  let queue := mkQueue chunks (chooseVoice voices voiceName) rate pitch
  ({ s1 with
     queue := queue
     playing := true
     paused := false }, queue)

/-- Model of `play()` (`Reader.tsx`): no-op when the raw `text` trims to
empty; otherwise, when paused with a saved pause position and non-empty
remaining chunks, cancel and rebuild the queue from the remaining chunks
with positions restored from the checkpoint; otherwise start fresh. -/
def play (text plainText : List Char) (voices : List (List Char))
    (voiceName : List Char) (rate pitch : ℚ) (s : Session) :
    Session × List Utterance :=
  if jsTrim text = [] then (s, [])
  else
    match s.checkpoint with
    | some cp =>
      if s.paused = true ∧ s.remainingChunks ≠ [] then
        let queue := mkQueue s.remainingChunks (chooseVoice voices voiceName)
          rate pitch
        ({ s with
           charBase := cp.1
           currentWordIdx := cp.2
           queue := queue
           playing := true
           paused := false }, queue)
      else playFresh plainText voices voiceName rate pitch s
    | none => playFresh plainText voices voiceName rate pitch s

/-- Model of `handlePageChange(page)` (`Reader.tsx`): always record the new
page; when chapter metadata and words are available, estimate the word
index from the page's relative position, but assign it only when neither
playing nor paused. -/
def handlePageChange (page : Int) (chapterInfo : Option (Int × Int))
    (words : List (List Char)) (s : Session) : Session :=
  let s1 := { s with currentPage := page }
  match chapterInfo with
  | some se =>
    if 0 < words.length then
      let totalPages : Int := se.2 - se.1 + 1
      let relativePosition : ℚ :=
        max 0 (min 1 (((page - se.1 : Int) : ℚ) / (totalPages : ℚ)))
      let estimatedWordIdx : Int := ⌊relativePosition * (words.length : ℚ)⌋
      if s1.playing = false ∧ s1.paused = false then
        { s1 with currentWordIdx := max 0 (min estimatedWordIdx ((words.length : Int) - 1)) }
      else s1
    else s1
  | none => s1

/-! Tokenizer / Offset-Indexer lemmas -/

theorem splitOnSpace_ne_nil (s : List Char) : splitOnSpace s ≠ [] := by
  induction s with
  | nil => simp [splitOnSpace]
  | cons c cs ih =>
    rw [splitOnSpace]
    cases hr : splitOnSpace cs with
    | nil => simp
    | cons w ws =>
      by_cases hc : c = ' ' <;> simp [hc]

theorem joinWords_cons_cons (a b : List Char) (l : List (List Char)) :
    joinWords (a :: b :: l) = a ++ ' ' :: joinWords (b :: l) := rfl

theorem joinWords_splitOnSpace (s : List Char) :
    joinWords (splitOnSpace s) = s := by
  induction s with
  | nil => rfl
  | cons c cs ih =>
    cases hr : splitOnSpace cs with
    | nil => exact absurd hr (splitOnSpace_ne_nil cs)
    | cons w ws =>
      rw [hr] at ih
      have hstep : splitOnSpace (c :: cs) =
          if c = ' ' then [] :: w :: ws else (c :: w) :: ws := by
        rw [splitOnSpace, hr]
      rw [hstep]
      by_cases hc : c = ' '
      · rw [if_pos hc, joinWords_cons_cons, ih, hc]
        rfl
      · rw [if_neg hc]
        cases ws with
        | nil =>
          calc joinWords [c :: w] = c :: w := rfl
            _ = c :: cs := by rw [show w = cs from ih]
        | cons w2 ws2 =>
          rw [joinWords_cons_cons]
          rw [joinWords_cons_cons] at ih
          simp only [List.cons_append]
          rw [ih]

theorem wordOffsetsAux_length (ws : List (List Char)) (p : Int) :
    (wordOffsetsAux ws p).length = ws.length := by
  induction ws generalizing p with
  | nil => rfl
  | cons w ws ih => simp [wordOffsetsAux, ih]

theorem wordOffsetsAux_getD (ws : List (List Char)) :
    ∀ (p : Int) (i : ℕ), i < ws.length →
      (wordOffsetsAux ws p).getD i 0 =
        p + (((ws.take i).map (fun w => (w.length : Int) + 1)).sum) := by
  induction ws with
  | nil => intro p i hi; simp at hi
  | cons w ws ih =>
    intro p i hi
    cases i with
    | zero => simp [wordOffsetsAux]
    | succ j =>
      have hj : j < ws.length := by simpa using hi
      simp only [wordOffsetsAux, List.getD_cons_succ, List.take_succ_cons,
        List.map_cons, List.sum_cons]
      rw [ih (p + w.length + 1) j hj]
      ring

theorem wordOffsetsAux_le_mem (ws : List (List Char)) :
    ∀ (p x : Int), x ∈ wordOffsetsAux ws p → p ≤ x := by
  induction ws with
  | nil => intro p x hx; simp [wordOffsetsAux] at hx
  | cons w ws ih =>
    intro p x hx
    simp only [wordOffsetsAux, List.mem_cons] at hx
    rcases hx with rfl | hx
    · exact le_refl _
    · have := ih (p + w.length + 1) x hx
      have hw : (0 : Int) ≤ w.length := Int.ofNat_nonneg _
      omega

theorem wordOffsetsAux_pairwise (ws : List (List Char)) :
    ∀ p : Int, (wordOffsetsAux ws p).Pairwise (· < ·) := by
  induction ws with
  | nil => intro p; simp [wordOffsetsAux]
  | cons w ws ih =>
    intro p
    rw [wordOffsetsAux, List.pairwise_cons]
    refine ⟨fun x hx => ?_, ih _⟩
    have := wordOffsetsAux_le_mem ws (p + w.length + 1) x hx
    have hw : (0 : Int) ≤ w.length := Int.ofNat_nonneg _
    omega

theorem wordOffsets_length (ws : List (List Char)) :
    (wordOffsets ws).length = ws.length :=
  wordOffsetsAux_length ws 0

theorem wordOffsets_getD (ws : List (List Char)) (i : ℕ) (hi : i < ws.length) :
    (wordOffsets ws).getD i 0 =
      (((ws.take i).map (fun w => (w.length : Int) + 1)).sum) := by
  rw [wordOffsets, wordOffsetsAux_getD ws 0 i hi, zero_add]

theorem wordOffsets_pairwise (ws : List (List Char)) :
    (wordOffsets ws).Pairwise (· < ·) :=
  wordOffsetsAux_pairwise ws 0

/-- C3: for every non-empty Plain Text, the tokenizer outputs parallel
`words`/`offsets` lists: equal lengths, `offsets[0] = 0`, strictly
increasing offsets, and `offsets[i]` is the character position of
`words[i]` in the Plain Text, which is exactly the one-space join of the
words. -/
theorem tokenizer_invariants (s : List Char) (hs : s ≠ []) :
    (wordOffsets (splitOnSpace s)).length = (splitOnSpace s).length ∧
    (wordOffsets (splitOnSpace s)).getD 0 0 = 0 ∧
    (wordOffsets (splitOnSpace s)).Pairwise (· < ·) ∧
    (∀ i : ℕ, i < (splitOnSpace s).length →
      (wordOffsets (splitOnSpace s)).getD i 0 =
        ((((splitOnSpace s).take i).map (fun w => (w.length : Int) + 1)).sum)) ∧
    joinWords (splitOnSpace s) = s := by
  have hne : splitOnSpace s ≠ [] := splitOnSpace_ne_nil s
  have hlen : 0 < (splitOnSpace s).length := List.length_pos.mpr hne
  refine ⟨wordOffsets_length _, ?_, wordOffsets_pairwise _,
    fun i hi => wordOffsets_getD _ i hi, joinWords_splitOnSpace s⟩
  rw [wordOffsets_getD _ 0 hlen]
  simp

/-- C3 witness: the invariants instantiated at the Plain Text `"a b"`. -/
theorem tokenizer_invariants_witness :
    (wordOffsets (splitOnSpace ['a', ' ', 'b'])).getD 0 0 = 0 ∧
    (wordOffsets (splitOnSpace ['a', ' ', 'b'])).Pairwise (· < ·) ∧
    joinWords (splitOnSpace ['a', ' ', 'b']) = ['a', ' ', 'b'] := by
  have h := tokenizer_invariants ['a', ' ', 'b'] (by decide)
  exact ⟨h.2.1, h.2.2.1, h.2.2.2.2⟩

/-- C7 counterexample: on raw text whose Plain Text is empty (the empty
document), the tokenizer's word list is `[""]` (a single empty token),
not the empty list the claim states. -/
theorem tokenizer_empty_counterexample :
    plainOf [] = [] ∧
    splitOnSpace (plainOf []) = [[]] ∧
    ([[]] : List (List Char)) ≠ [] := by
  have h : plainOf [] = [] := by
    simp [plainOf, stripHeading, stripQuote, stripBullet, stripMarkGo,
      stripSidebar, collapseDoubleNewline, collapseWsGo, jsTrim]
  exact ⟨h, by rw [h]; rfl, by simp⟩

/-- C7 amended: when the stripped, whitespace-normalized Plain Text is
empty, the tokenizer yields the one-element word list containing the
empty token (JavaScript `"".split(" ") = [""]`), not the empty list. -/
theorem tokenizer_empty_amended (text : List Char) (h : plainOf text = []) :
    splitOnSpace (plainOf text) = [[]] := by
  rw [h]; rfl

/-- C7 amended witness: instantiated at the empty raw text. -/
theorem tokenizer_empty_amended_witness :
    splitOnSpace (plainOf []) = [[]] :=
  tokenizer_empty_amended [] (by
    simp [plainOf, stripHeading, stripQuote, stripBullet, stripMarkGo,
      stripSidebar, collapseDoubleNewline, collapseWsGo, jsTrim])

/-! Binary-search (Position Mapper, Contract A) lemmas -/

theorem pairwise_getD_mono (offs : List Int) (hp : offs.Pairwise (· ≤ ·)) :
    ∀ i j : ℕ, i ≤ j → j < offs.length → offs.getD i 0 ≤ offs.getD j 0 := by
  intro i j hij hj
  rcases eq_or_lt_of_le hij with rfl | hlt
  · exact le_refl _
  · have hi : i < offs.length := lt_trans hlt hj
    have hg := List.pairwise_iff_getElem.mp hp i j hi hj hlt
    rwa [List.getD_eq_getElem _ _ hi, List.getD_eq_getElem _ _ hj]

theorem findGo_spec (offs : List Int) (g : Int) (hne : offs ≠ [])
    (mono : ∀ i j : ℕ, i ≤ j → j < offs.length → offs.getD i 0 ≤ offs.getD j 0) :
    ∀ (n : ℕ) (lo hi ans : Int), (hi + 1 - lo).toNat = n →
      0 ≤ lo → lo ≤ hi + 1 → hi < (offs.length : Int) →
      (lo = 0 ∧ ans = 0 ∨
        (0 < lo ∧ ans = lo - 1 ∧ offs.getD (lo - 1).toNat 0 ≤ g)) →
      (∀ j : ℕ, hi < (j : Int) → j < offs.length → g < offs.getD j 0) →
      0 ≤ findGo offs g lo hi ans ∧
      findGo offs g lo hi ans < (offs.length : Int) ∧
      (∀ j : ℕ, j < offs.length → offs.getD j 0 ≤ g →
        (j : Int) ≤ findGo offs g lo hi ans) ∧
      (offs.getD (findGo offs g lo hi ans).toNat 0 ≤ g ∨
        findGo offs g lo hi ans = 0) := by
  intro n
  induction n using Nat.strong_induction_on with
  | _ n IH =>
    intro lo hi ans hn h0 h1 h2 hinv hhi
    have hlenpos : 0 < offs.length := List.length_pos.mpr hne
    by_cases h : lo ≤ hi
    · have hmidlo : lo ≤ (lo + hi) / 2 := by omega
      have hmidhi : (lo + hi) / 2 ≤ hi := by omega
      have hunfold : findGo offs g lo hi ans =
          if offs.getD ((lo + hi) / 2).toNat 0 ≤ g then
            findGo offs g ((lo + hi) / 2 + 1) hi ((lo + hi) / 2)
          else findGo offs g lo ((lo + hi) / 2 - 1) ans := by
        rw [findGo, dif_pos h]
      by_cases hcond : offs.getD ((lo + hi) / 2).toNat 0 ≤ g
      · rw [hunfold, if_pos hcond]
        refine IH (hi + 1 - ((lo + hi) / 2 + 1)).toNat (by omega)
          ((lo + hi) / 2 + 1) hi ((lo + hi) / 2) rfl (by omega) (by omega) h2
          (Or.inr ⟨by omega, by omega, ?_⟩) hhi
        have heq : ((lo + hi) / 2 + 1 - 1) = (lo + hi) / 2 := by omega
        rw [heq]
        exact hcond
      · rw [hunfold, if_neg hcond]
        refine IH (((lo + hi) / 2 - 1) + 1 - lo).toNat (by omega)
          lo ((lo + hi) / 2 - 1) ans rfl h0 (by omega) (by omega) hinv ?_
        intro j hj1 hj2
        have hjm : ((lo + hi) / 2).toNat ≤ j := by omega
        have := mono ((lo + hi) / 2).toNat j hjm hj2
        omega
    · have hunfold : findGo offs g lo hi ans = ans := by
        rw [findGo, dif_neg h]
      rw [hunfold]
      have hlohi : lo = hi + 1 := by omega
      rcases hinv with ⟨hl0, ha0⟩ | ⟨hlpos, hans, hle⟩
      · subst hl0; subst ha0
        refine ⟨le_refl 0, by exact_mod_cast hlenpos, ?_, Or.inr rfl⟩
        intro j hj hjle
        have := hhi j (by omega) hj
        omega
      · refine ⟨by omega, by omega, ?_, Or.inl (by rw [← hans] at hle; exact hle)⟩
        intro j hj hjle
        by_contra hcon
        push_neg at hcon
        have := hhi j (by omega) hj
        omega

theorem findWordIndexFromChar_sorted (offs : List Int) (g : Int)
    (hne : offs ≠ []) (hp : offs.Pairwise (· ≤ ·)) :
    0 ≤ findWordIndexFromChar offs g ∧
    findWordIndexFromChar offs g < (offs.length : Int) ∧
    (∀ j : ℕ, j < offs.length → offs.getD j 0 ≤ g →
      (j : Int) ≤ findWordIndexFromChar offs g) ∧
    (offs.getD (findWordIndexFromChar offs g).toNat 0 ≤ g ∨
      findWordIndexFromChar offs g = 0) := by
  have hlenpos : 0 < offs.length := List.length_pos.mpr hne
  refine findGo_spec offs g hne (pairwise_getD_mono offs hp)
    ((offs.length : Int) - 1 + 1 - 0).toNat 0 ((offs.length : Int) - 1) 0 rfl
    (le_refl 0) (by omega) (by omega) (Or.inl ⟨rfl, rfl⟩) ?_
  intro j hj1 hj2
  omega

/-- C2: over a sorted offsets list, `findWordIndexFromChar` returns the
greatest index `i` with `offsets[i] <= globalCharIndex`, and `0` when no
index qualifies; in particular on offsets `[0, 6, 11, 17]` (Plain Text
`"alpha beta gamma delta"`) the word index of character 12 is 2. -/
theorem findWordIndexFromChar_spec :
    (∀ (offs : List Int) (g : Int), offs ≠ [] → offs.Pairwise (· ≤ ·) →
      0 ≤ findWordIndexFromChar offs g ∧
      findWordIndexFromChar offs g < (offs.length : Int) ∧
      (∀ j : ℕ, j < offs.length → offs.getD j 0 ≤ g →
        (j : Int) ≤ findWordIndexFromChar offs g) ∧
      (offs.getD (findWordIndexFromChar offs g).toNat 0 ≤ g ∨
        findWordIndexFromChar offs g = 0)) ∧
    findWordIndexFromChar [0, 6, 11, 17] 12 = 2 := by
  constructor
  · exact fun offs g hne hp => findWordIndexFromChar_sorted offs g hne hp
  · simp [findWordIndexFromChar, findGo]

/-- C2 witness: the characterization applied to the sorted offsets
`[0, 6, 11, 17]` at character index 12. -/
theorem findWordIndexFromChar_spec_witness :
    0 ≤ findWordIndexFromChar [0, 6, 11, 17] 12 ∧
    findWordIndexFromChar [0, 6, 11, 17] 12 < 4 := by
  have h := findWordIndexFromChar_spec.1 [0, 6, 11, 17] 12 (by simp) (by decide)
  exact ⟨h.1, by simpa using h.2.1⟩

/-- C10: the tokenizer always produces at least one token (JavaScript
`split` on a space never returns an empty array), hence a non-empty
Offset Index, and `findWordIndexFromChar` over it is total: its result is
in `[0, words.length - 1]` for every integer argument, and every argument
below `offsets[1]` (including negative values) maps to index 0. -/
theorem tokenizer_search_safety :
    ∀ (s : List Char) (g : Int),
      splitOnSpace s ≠ [] ∧
      wordOffsets (splitOnSpace s) ≠ [] ∧
      0 ≤ findWordIndexFromChar (wordOffsets (splitOnSpace s)) g ∧
      findWordIndexFromChar (wordOffsets (splitOnSpace s)) g ≤
        ((splitOnSpace s).length : Int) - 1 ∧
      (1 < (wordOffsets (splitOnSpace s)).length →
        g < (wordOffsets (splitOnSpace s)).getD 1 0 →
        findWordIndexFromChar (wordOffsets (splitOnSpace s)) g = 0) := by
  intro s g
  have hws : splitOnSpace s ≠ [] := splitOnSpace_ne_nil s
  have hlen : (wordOffsets (splitOnSpace s)).length = (splitOnSpace s).length :=
    wordOffsets_length _
  have hne : wordOffsets (splitOnSpace s) ≠ [] := by
    intro hcon
    have := List.length_pos.mpr hws
    rw [hcon] at hlen
    simp at hlen
    omega
  have hp : (wordOffsets (splitOnSpace s)).Pairwise (· ≤ ·) :=
    (wordOffsets_pairwise _).imp (fun h => le_of_lt h)
  have hmono := pairwise_getD_mono _ hp
  have h := findWordIndexFromChar_sorted (wordOffsets (splitOnSpace s)) g hne hp
  refine ⟨hws, hne, h.1, by rw [hlen] at h; omega, ?_⟩
  intro h1 hlt
  rcases h.2.2.2 with hle | h0
  · by_contra hcon
    have hr0 : 0 < findWordIndexFromChar (wordOffsets (splitOnSpace s)) g := by
      rcases lt_or_eq_of_le h.1 with hpos | heq
      · exact hpos
      · exact absurd heq.symm hcon
    have hmem : 1 ≤ (findWordIndexFromChar (wordOffsets (splitOnSpace s)) g).toNat := by
      omega
    have hrlen : (findWordIndexFromChar (wordOffsets (splitOnSpace s)) g).toNat <
        (wordOffsets (splitOnSpace s)).length := by
      have := h.2.1
      omega
    have := hmono 1 (findWordIndexFromChar (wordOffsets (splitOnSpace s)) g).toNat
      hmem hrlen
    omega
  · exact h0

/-- C10 witness: instantiated at Plain Text `"a b"` with the negative
character index `-3`, which maps to word index 0. -/
theorem tokenizer_search_safety_witness :
    findWordIndexFromChar (wordOffsets (splitOnSpace ['a', ' ', 'b'])) (-3) = 0 :=
  (tokenizer_search_safety ['a', ' ', 'b'] (-3)).2.2.2.2 (by decide) (by decide)

/-! Chunker lemmas -/

theorem dropWhile_length_le (q : Char → Bool) (l : List Char) :
    (l.dropWhile q).length ≤ l.length := by
  induction l with
  | nil => simp
  | cons a as ih =>
    by_cases hq : q a <;> simp [List.dropWhile_cons, hq] <;> omega

theorem jsTrim_length_le (s : List Char) : (jsTrim s).length ≤ s.length := by
  rw [jsTrim, List.length_reverse]
  calc ((s.dropWhile isSpace).reverse.dropWhile isSpace).length
      ≤ (s.dropWhile isSpace).reverse.length := dropWhile_length_le _ _
    _ = (s.dropWhile isSpace).length := List.length_reverse _
    _ ≤ s.length := dropWhile_length_le _ _

theorem mem_of_mem_dropWhile (q : Char → Bool) (l : List Char) (c : Char)
    (h : c ∈ l.dropWhile q) : c ∈ l := by
  have h2 : c ∈ l.takeWhile q ++ l.dropWhile q := List.mem_append_right _ h
  rwa [List.takeWhile_append_dropWhile] at h2

theorem jsTrim_eq_nil_iff (s : List Char) :
    jsTrim s = [] ↔ ∀ c ∈ s, isSpace c := by
  rw [jsTrim, List.reverse_eq_nil_iff, List.dropWhile_eq_nil_iff]
  constructor
  · intro h c hc
    rcases List.mem_append.mp
        (by rw [List.takeWhile_append_dropWhile (p := isSpace) (l := s)]; exact hc :
          c ∈ s.takeWhile isSpace ++ s.dropWhile isSpace) with h1 | h1
    · exact List.mem_takeWhile_imp h1
    · exact h c (List.mem_reverse.mpr h1)
  · intro h c hc
    exact h c (mem_of_mem_dropWhile _ _ _ (List.mem_reverse.mp hc))

theorem all_space_of_jsTrim_all_space (s : List Char)
    (h : ∀ c ∈ jsTrim s, isSpace c) : ∀ c ∈ s, isSpace c := by
  intro c hc
  rcases List.mem_append.mp
      (by rw [List.takeWhile_append_dropWhile (p := isSpace) (l := s)]; exact hc :
        c ∈ s.takeWhile isSpace ++ s.dropWhile isSpace) with h1 | h1
  · exact List.mem_takeWhile_imp h1
  · have h2 : c ∈ (s.dropWhile isSpace).reverse := List.mem_reverse.mpr h1
    rcases List.mem_append.mp
        (by rw [List.takeWhile_append_dropWhile (p := isSpace)
            (l := (s.dropWhile isSpace).reverse)]; exact h2 :
          c ∈ (s.dropWhile isSpace).reverse.takeWhile isSpace ++
            (s.dropWhile isSpace).reverse.dropWhile isSpace) with h3 | h3
    · exact List.mem_takeWhile_imp h3
    · exact h c (List.mem_reverse.mpr h3)

theorem chunkGo_sizes (maxLen : Nat) :
    ∀ (bits : List (List Char)) (cur : List Char),
      ∀ c ∈ chunkGo maxLen cur bits,
        c.length ≤ maxLen ∨ c = jsTrim cur ∨ ∃ b ∈ bits, c = jsTrim b := by
  intro bits
  induction bits with
  | nil =>
    intro cur c hc
    rw [chunkGo] at hc
    by_cases h : jsTrim cur ≠ []
    · rw [if_pos h] at hc
      simp at hc
      exact Or.inr (Or.inl hc)
    · rw [if_neg h] at hc
      simp at hc
  | cons b rest ih =>
    intro cur c hc
    rw [chunkGo] at hc
    by_cases h : maxLen < (jsTrim (cur ++ ' ' :: b)).length
    · rw [if_pos h] at hc
      rcases List.mem_append.mp hc with h1 | h1
      · by_cases h2 : jsTrim cur ≠ []
        · rw [if_pos h2] at h1
          simp at h1
          exact Or.inr (Or.inl h1)
        · rw [if_neg h2] at h1
          simp at h1
      · rcases ih b c h1 with h2 | h2 | ⟨b', hb', h3⟩
        · exact Or.inl h2
        · exact Or.inr (Or.inr ⟨b, List.mem_cons_self b rest, h2⟩)
        · exact Or.inr (Or.inr ⟨b', List.mem_cons_of_mem b hb', h3⟩)
    · rw [if_neg h] at hc
      rcases ih (jsTrim (cur ++ ' ' :: b)) c hc with h2 | h2 | ⟨b', hb', h3⟩
      · exact Or.inl h2
      · left
        rw [h2]
        calc (jsTrim (jsTrim (cur ++ ' ' :: b))).length
            ≤ (jsTrim (cur ++ ' ' :: b)).length := jsTrim_length_le _
          _ ≤ maxLen := by omega
      · exact Or.inr (Or.inr ⟨b', List.mem_cons_of_mem b hb', h3⟩)

theorem chunkGo_eq_nil (maxLen : Nat) :
    ∀ (bits : List (List Char)) (cur : List Char),
      chunkGo maxLen cur bits = [] →
      (∀ ch ∈ cur, isSpace ch) ∧ ∀ b ∈ bits, ∀ ch ∈ b, isSpace ch := by
  intro bits
  induction bits with
  | nil =>
    intro cur h
    rw [chunkGo] at h
    by_cases h1 : jsTrim cur ≠ []
    · rw [if_pos h1] at h; simp at h
    · rw [if_neg h1] at h
      push_neg at h1
      exact ⟨(jsTrim_eq_nil_iff cur).mp h1, by simp⟩
  | cons b rest ih =>
    intro cur h
    rw [chunkGo] at h
    by_cases h1 : maxLen < (jsTrim (cur ++ ' ' :: b)).length
    · rw [if_pos h1] at h
      rcases List.append_eq_nil.mp h with ⟨h2, h3⟩
      have hcur : jsTrim cur = [] := by
        by_cases h4 : jsTrim cur ≠ []
        · rw [if_pos h4] at h2; simp at h2
        · push_neg at h4; exact h4
      have hrest := ih b h3
      refine ⟨(jsTrim_eq_nil_iff cur).mp hcur, ?_⟩
      intro b' hb'
      rcases List.mem_cons.mp hb' with rfl | hb'
      · exact hrest.1
      · exact hrest.2 b' hb'
    · rw [if_neg h1] at h
      have hrec := ih (jsTrim (cur ++ ' ' :: b)) h
      have hall : ∀ ch ∈ cur ++ ' ' :: b, isSpace ch :=
        all_space_of_jsTrim_all_space _ hrec.1
      refine ⟨fun ch hch => hall ch (List.mem_append_left _ hch), ?_⟩
      intro b' hb'
      rcases List.mem_cons.mp hb' with rfl | hb'
      · intro ch hch
        exact hall ch (List.mem_append_right _ (List.mem_cons_of_mem _ hch))
      · exact hrec.2 b' hb'

theorem splitSentencesAux_ne_nil (prev : Char) (s : List Char) :
    splitSentencesAux prev s ≠ [] := by
  cases s with
  | nil => rw [splitSentencesAux]; simp
  | cons c cs =>
    rw [splitSentencesAux]
    by_cases h : isSentEnd prev ∧ isSpace c
    · rw [if_pos h]; simp
    · rw [if_neg h]
      cases hr : splitSentencesAux c cs <;> simp

theorem isSentEnd_eq_false_of_isSpace (c : Char) (h : isSpace c) :
    isSentEnd c = false := by
  simp only [isSpace, Bool.or_eq_true, beq_iff_eq] at h
  rcases h with (((((h | h) | h) | h) | h) | h) | h <;> subst h <;> decide

theorem splitSentencesAux_chars :
    ∀ (n : ℕ) (s : List Char), s.length = n → ∀ (prev : Char),
      ∀ c ∈ s, isSpace c ∨ ∃ w ∈ splitSentencesAux prev s, c ∈ w := by
  intro n
  induction n using Nat.strong_induction_on with
  | _ n IH =>
    intro s hn prev c hc
    cases s with
    | nil => simp at hc
    | cons c0 cs =>
      rw [splitSentencesAux]
      by_cases h : isSentEnd prev ∧ isSpace c0
      · rw [if_pos h]
        rcases List.mem_cons.mp hc with rfl | hc1
        · exact Or.inl h.2
        · rcases List.mem_append.mp
              (by rw [List.takeWhile_append_dropWhile (p := isSpace) (l := cs)]
                  exact hc1 :
                c ∈ cs.takeWhile isSpace ++ cs.dropWhile isSpace) with h1 | h1
          · exact Or.inl (List.mem_takeWhile_imp h1)
          · have hlen : (cs.dropWhile isSpace).length < n := by
              have := dropWhile_length_le isSpace cs
              simp at hn
              omega
            rcases IH _ hlen (cs.dropWhile isSpace) rfl c0 c h1 with h2 | ⟨w, hw, h3⟩
            · exact Or.inl h2
            · exact Or.inr ⟨w, List.mem_cons_of_mem _ hw, h3⟩
      · rw [if_neg h]
        cases hr : splitSentencesAux c0 cs with
        | nil => exact absurd hr (splitSentencesAux_ne_nil c0 cs)
        | cons w0 ws =>
          rcases List.mem_cons.mp hc with rfl | hc1
          · exact Or.inr ⟨c :: w0, List.mem_cons_self _ _, List.mem_cons_self _ _⟩
          · have hlen : cs.length < n := by simp at hn; omega
            rcases IH _ hlen cs rfl c0 c hc1 with h2 | ⟨w, hw, h3⟩
            · exact Or.inl h2
            · rw [hr] at hw
              rcases List.mem_cons.mp hw with rfl | hw1
              · exact Or.inr ⟨c0 :: w, List.mem_cons_self _ _,
                  List.mem_cons_of_mem _ h3⟩
              · exact Or.inr ⟨w, List.mem_cons_of_mem _ hw1, h3⟩

theorem splitSentencesAux_no_sentEnd :
    ∀ (s : List Char) (prev : Char), isSentEnd prev = false →
      (∀ c ∈ s, isSentEnd c = false) → splitSentencesAux prev s = [s] := by
  intro s
  induction s with
  | nil => intro prev _ _; rw [splitSentencesAux]
  | cons c0 cs ih =>
    intro prev hprev hall
    rw [splitSentencesAux]
    have h : ¬(isSentEnd prev ∧ isSpace c0) := by
      rw [hprev]; simp
    rw [if_neg h]
    have hrec : splitSentencesAux c0 cs = [cs] :=
      ih c0 (hall c0 (List.mem_cons_self _ _))
        (fun c hc => hall c (List.mem_cons_of_mem _ hc))
    rw [hrec]

/-- C6: with `maxLen = 1200`, every chunk produced by `chunkSentences` has
length at most 1200 except when a single sentence fragment alone exceeds
1200 characters, which becomes its own chunk (possibly trimmed, never
split); and the returned chunk list is never empty. -/
theorem chunkSentences_bound (text : List Char) :
    (∀ c ∈ chunkSentences 1200 text, c.length ≤ 1200 ∨
      ∃ b ∈ splitSentences text, 1200 < b.length ∧ (c = jsTrim b ∨ c = b)) ∧
    chunkSentences 1200 text ≠ [] := by
  rw [chunkSentences]
  by_cases h : chunkGo 1200 [] (splitSentences text) ≠ []
  · rw [if_pos h]
    refine ⟨?_, h⟩
    intro c hc
    by_cases hlen : c.length ≤ 1200
    · exact Or.inl hlen
    · rcases chunkGo_sizes 1200 (splitSentences text) [] c hc with h1 | h1 | ⟨b, hb, h1⟩
      · exact Or.inl h1
      · rw [h1] at hlen; simp [jsTrim] at hlen
      · refine Or.inr ⟨b, hb, ?_, Or.inl h1⟩
        have := jsTrim_length_le b
        rw [h1] at hlen
        omega
  · rw [if_neg h]
    push_neg at h
    refine ⟨?_, by simp⟩
    intro c hc
    simp at hc
    subst hc
    by_cases hlen : c.length ≤ 1200
    · exact Or.inl hlen
    · have hsp := (chunkGo_eq_nil 1200 (splitSentences c) [] h).2
      have hallsp : ∀ ch ∈ c, isSpace ch := by
        intro ch hch
        rcases splitSentencesAux_chars c.length c rfl '\x00' ch hch with h1 | ⟨w, hw, h2⟩
        · exact h1
        · exact hsp w hw ch h2
      have hnse : ∀ ch ∈ c, isSentEnd ch = false :=
        fun ch hch => isSentEnd_eq_false_of_isSpace ch (hallsp ch hch)
      have hsplit : splitSentences c = [c] :=
        splitSentencesAux_no_sentEnd c '\x00' (by decide) hnse
      refine Or.inr ⟨c, ?_, by omega, Or.inr rfl⟩
      rw [hsplit]
      simp

/-- C6 witness: the bound applied to the three-character text `"Hi."`,
whose single chunk has length at most 1200, and non-emptiness of the
chunk list. -/
theorem chunkSentences_bound_witness :
    chunkSentences 1200 ['H', 'i', '.'] ≠ [] ∧
    (['H', 'i', '.'].length ≤ 1200 ∨
      ∃ b ∈ splitSentences ['H', 'i', '.'], 1200 < b.length ∧
        (['H', 'i', '.'] = jsTrim b ∨ ['H', 'i', '.'] = b)) := by
  refine ⟨(chunkSentences_bound ['H', 'i', '.']).2,
    (chunkSentences_bound ['H', 'i', '.']).1 ['H', 'i', '.'] ?_⟩
  simp [chunkSentences, splitSentences, splitSentencesAux, chunkGo, jsTrim,
    isSpace, isSentEnd]

/-! Playback Controller theorems -/

/-- C4: invoking `play()` in the Paused state with a saved checkpoint and
non-empty remaining chunks resumes from the checkpoint: `charBase` and
`currentWordIdx` are restored from the checkpoint (not reset), and the
newly submitted utterance queue is built from the remaining chunks only. -/
theorem play_resume_from_checkpoint
    (text plainText : List Char) (voices : List (List Char))
    (voiceName : List Char) (rate pitch : ℚ) (s : Session) (cb wi : Int)
    (htext : jsTrim text ≠ []) (hpaused : s.paused = true)
    (hcp : s.checkpoint = some (cb, wi)) (hrem : s.remainingChunks ≠ []) :
    (play text plainText voices voiceName rate pitch s).1.charBase = cb ∧
    (play text plainText voices voiceName rate pitch s).1.currentWordIdx = wi ∧
    (play text plainText voices voiceName rate pitch s).1.playing = true ∧
    (play text plainText voices voiceName rate pitch s).1.paused = false ∧
    (play text plainText voices voiceName rate pitch s).2.map Utterance.text =
      s.remainingChunks ∧
    (play text plainText voices voiceName rate pitch s).1.queue =
      (play text plainText voices voiceName rate pitch s).2 := by
  simp only [play, if_neg htext, hcp, hpaused, hrem, mkQueue]
  refine ⟨?_, ?_⟩
  · simp [hpaused, hrem]
  · have hid : (Utterance.text ∘ fun c =>
        ({ text := c, voice := chooseVoice voices voiceName, rate := rate,
           pitch := pitch } : Utterance)) = id := funext fun c => rfl
    simp [hpaused, hrem, List.map_map, hid]

/-- C4 witness: a paused session with checkpoint `(7, 3)` and one
remaining chunk resumes with `charBase = 7` and word index 3. -/
theorem play_resume_from_checkpoint_witness :
    (play ['x'] ['x'] [] [] 1 1
      { initialSession with
        paused := true
        checkpoint := some (7, 3)
        remainingChunks := [['a']] }).1.charBase = 7 ∧
    (play ['x'] ['x'] [] [] 1 1
      { initialSession with
        paused := true
        checkpoint := some (7, 3)
        remainingChunks := [['a']] }).1.currentWordIdx = 3 := by
  have h := play_resume_from_checkpoint ['x'] ['x'] [] [] 1 1
    { initialSession with
      paused := true
      checkpoint := some (7, 3)
      remainingChunks := [['a']] } 7 3 (by decide) rfl rfl (by simp)
  exact ⟨h.1, h.2.1⟩

/-- C8 amended: `play()` is a no-op (session unchanged, nothing submitted)
exactly when the raw component `text` trims to the empty string; the
source guard is on the raw text, not on the derived Plain Text. -/
theorem play_noop_of_blank_raw_text
    (text plainText : List Char) (voices : List (List Char))
    (voiceName : List Char) (rate pitch : ℚ) (s : Session)
    (h : jsTrim text = []) :
    play text plainText voices voiceName rate pitch s = (s, []) := by
  simp [play, h]

/-- C8 amended witness: on whitespace-only raw text, `play()` returns the
session unchanged and submits nothing. -/
theorem play_noop_of_blank_raw_text_witness :
    play [' '] [] [] [] 1 1 initialSession = (initialSession, []) :=
  play_noop_of_blank_raw_text [' '] [] [] [] 1 1 initialSession (by decide)

/-- C8 counterexample: for the raw text `"---\n"` the Plain Text is empty,
yet `play()` is not a no-op: it flips `playing` to `true` and submits a
(single, empty-text) utterance, because the guard tests the raw text. -/
theorem play_empty_plainText_counterexample :
    plainOf ['-', '-', '-', '\n'] = [] ∧
    jsTrim ['-', '-', '-', '\n'] ≠ [] ∧
    (play ['-', '-', '-', '\n'] (plainOf ['-', '-', '-', '\n']) [] [] 1 1
      initialSession).1.playing = true ∧
    (play ['-', '-', '-', '\n'] (plainOf ['-', '-', '-', '\n']) [] [] 1 1
      initialSession).2 ≠ [] := by
  have hp : plainOf ['-', '-', '-', '\n'] = [] := by
    simp [plainOf, stripHeading, stripQuote, stripBullet, stripMarkGo,
      stripSidebar, collapseDoubleNewline, collapseWsGo, jsTrim, isSpace]
  refine ⟨hp, by decide, ?_, ?_⟩ <;>
    rw [hp] <;>
    simp [play, playFresh, initialSession, stopAll, chunkSentences,
      splitSentences, splitSentencesAux, chunkGo, mkQueue, chooseVoice,
      jsTrim, isSpace]

/-- C9: while the session is Playing or Paused, an externally-initiated
page change never modifies `currentWordIdx`; the word-index
resynchronization assignment only happens in the Idle state. -/
theorem handlePageChange_preserves_wordIdx
    (page : Int) (chapterInfo : Option (Int × Int))
    (words : List (List Char)) (s : Session)
    (h : s.playing = true ∨ s.paused = true) :
    (handlePageChange page chapterInfo words s).currentWordIdx =
      s.currentWordIdx := by
  cases chapterInfo with
  | none => rfl
  | some se =>
    simp only [handlePageChange]
    by_cases hw : 0 < words.length
    · rw [if_pos hw]
      have hnot : ¬({ s with currentPage := page }.playing = false ∧
          { s with currentPage := page }.paused = false) := by
        simp only [not_and]
        intro h1 h2
        rcases h with h | h
        · rw [h1] at h; exact Bool.false_ne_true h
        · rw [h2] at h; exact Bool.false_ne_true h
      rw [if_neg hnot]
    · rw [if_neg hw]

/-- C9 witness: a playing session keeps word index 5 across an external
page change. -/
theorem handlePageChange_preserves_wordIdx_witness :
    (handlePageChange 3 (some (1, 10)) [['a']]
      { initialSession with
        playing := true
        currentWordIdx := 5 }).currentWordIdx = 5 :=
  handlePageChange_preserves_wordIdx 3 (some (1, 10)) [['a']]
    { initialSession with
      playing := true
      currentWordIdx := 5 } (Or.inl rfl)

/-! Position Mapper (page estimation) lemmas -/

theorem rpow_sub_rpow_le (a b q : ℝ) (ha : 0 ≤ a) (hab : a ≤ b) (hb : b ≤ 1)
    (hq : 1 ≤ q) : b ^ q - a ^ q ≤ q * (b - a) := by
  rcases eq_or_lt_of_le (ha.trans hab) with hb0 | hb0
  · have ha0 : a = 0 := le_antisymm (by rw [← hb0] at hab; exact hab) ha
    rw [ha0, ← hb0, Real.zero_rpow (by linarith : q ≠ 0)]
    simp
  · have ht0 : 0 ≤ a / b := div_nonneg ha hb0.le
    have ht1 : a / b ≤ 1 := (div_le_one hb0).mpr hab
    have hber : 1 + q * (a / b - 1) ≤ (a / b) ^ q := by
      have hh := one_add_mul_self_le_rpow_one_add
        (s := a / b - 1) (p := q) (by linarith) hq
      simpa using hh
    have habt : a = b * (a / b) := by field_simp
    have hbq0 : 0 ≤ b ^ q := Real.rpow_nonneg hb0.le q
    have hbqb : b ^ q ≤ b := by
      have hh := Real.rpow_le_rpow_of_exponent_ge hb0 hb hq
      simpa [Real.rpow_one] using hh
    have hqt0 : 0 ≤ q * (1 - a / b) :=
      mul_nonneg (by linarith) (by linarith)
    calc b ^ q - a ^ q = b ^ q - (b * (a / b)) ^ q := by rw [← habt]
      _ = b ^ q - b ^ q * (a / b) ^ q := by
          rw [Real.mul_rpow hb0.le ht0]
      _ = b ^ q * (1 - (a / b) ^ q) := by ring
      _ ≤ b ^ q * (q * (1 - a / b)) := by
          apply mul_le_mul_of_nonneg_left _ hbq0
          linarith
      _ ≤ b * (q * (1 - a / b)) := mul_le_mul_of_nonneg_right hbqb hqt0
      _ = q * (b - b * (a / b)) := by ring
      _ = q * (b - a) := by rw [← habt]

theorem estimatePage_eq (sp ep : ℤ) (N w : ℕ) (d : ℝ)
    (hse : sp ≤ ep) (hw : w < N) (hd : 0 < d) :
    estimatePage sp ep N w d =
      sp + ⌊((w : ℝ) / (N : ℝ)) ^ (0.5 * d) * ((ep - sp + 1 : ℤ) : ℝ)⌋ ∧
    0 ≤ ⌊((w : ℝ) / (N : ℝ)) ^ (0.5 * d) * ((ep - sp + 1 : ℤ) : ℝ)⌋ ∧
    ⌊((w : ℝ) / (N : ℝ)) ^ (0.5 * d) * ((ep - sp + 1 : ℤ) : ℝ)⌋ ≤ ep - sp := by
  have hN : 0 < N := Nat.lt_of_le_of_lt (Nat.zero_le w) hw
  have hN0 : (0 : ℝ) < (N : ℝ) := by exact_mod_cast hN
  have hx0 : 0 ≤ (w : ℝ) / (N : ℝ) := div_nonneg (by positivity) hN0.le
  have hx1 : (w : ℝ) / (N : ℝ) < 1 := (div_lt_one hN0).mpr (by exact_mod_cast hw)
  have he : 0 < 0.5 * d := mul_pos (by norm_num) hd
  have hu0 : 0 ≤ ((w : ℝ) / (N : ℝ)) ^ (0.5 * d) := Real.rpow_nonneg hx0 _
  have hu1 : ((w : ℝ) / (N : ℝ)) ^ (0.5 * d) < 1 := Real.rpow_lt_one hx0 hx1 he
  have hT : (0 : ℤ) < ep - sp + 1 := by omega
  have hT0 : (0 : ℝ) < ((ep - sp + 1 : ℤ) : ℝ) := by exact_mod_cast hT
  have hk0 : 0 ≤ ⌊((w : ℝ) / (N : ℝ)) ^ (0.5 * d) * ((ep - sp + 1 : ℤ) : ℝ)⌋ :=
    Int.floor_nonneg.mpr (mul_nonneg hu0 hT0.le)
  have hkT : ⌊((w : ℝ) / (N : ℝ)) ^ (0.5 * d) * ((ep - sp + 1 : ℤ) : ℝ)⌋ <
      ep - sp + 1 := by
    apply Int.floor_lt.mpr
    push_cast
    calc ((w : ℝ) / (N : ℝ)) ^ (0.5 * d) * ((ep : ℝ) - sp + 1)
        < 1 * ((ep : ℝ) - sp + 1) := by
          apply mul_lt_mul_of_pos_right hu1
          push_cast at hT0
          exact hT0
      _ = (ep : ℝ) - sp + 1 := one_mul _
  refine ⟨?_, hk0, by omega⟩
  simp only [estimatePage]
  rw [Int.floor_int_add]
  rw [min_eq_right (by omega), max_eq_right (by omega)]

theorem estimateWordIndex_eq (sp ep : ℤ) (N : ℕ) (p : ℤ) (d : ℝ)
    (hN : 0 < N) (hd : 0 < d) (hp1 : sp ≤ p) (hp2 : p ≤ ep) :
    estimateWordIndex sp ep N p d =
      ⌊(((p - sp : ℤ) : ℝ) / ((ep - sp + 1 : ℤ) : ℝ)) ^ (2.0 / d) * (N : ℝ)⌋ := by
  have hT : (0 : ℤ) < ep - sp + 1 := by omega
  have hT0 : (0 : ℝ) < ((ep - sp + 1 : ℤ) : ℝ) := by exact_mod_cast hT
  have hr0 : 0 ≤ ((p - sp : ℤ) : ℝ) / ((ep - sp + 1 : ℤ) : ℝ) :=
    div_nonneg (by exact_mod_cast (by omega : (0 : ℤ) ≤ p - sp)) hT0.le
  have hr1 : ((p - sp : ℤ) : ℝ) / ((ep - sp + 1 : ℤ) : ℝ) < 1 :=
    (div_lt_one hT0).mpr (by exact_mod_cast (by omega : p - sp < ep - sp + 1))
  have hq : 0 < 2.0 / d := div_pos (by norm_num) hd
  have hv0 : 0 ≤ (((p - sp : ℤ) : ℝ) / ((ep - sp + 1 : ℤ) : ℝ)) ^ (2.0 / d) :=
    Real.rpow_nonneg hr0 _
  have hv1 : (((p - sp : ℤ) : ℝ) / ((ep - sp + 1 : ℤ) : ℝ)) ^ (2.0 / d) < 1 :=
    Real.rpow_lt_one hr0 hr1 hq
  have hN0 : (0 : ℝ) < (N : ℝ) := by exact_mod_cast hN
  have hfl0 : 0 ≤ ⌊(((p - sp : ℤ) : ℝ) / ((ep - sp + 1 : ℤ) : ℝ)) ^ (2.0 / d) *
      (N : ℝ)⌋ := Int.floor_nonneg.mpr (mul_nonneg hv0 hN0.le)
  have hflN : ⌊(((p - sp : ℤ) : ℝ) / ((ep - sp + 1 : ℤ) : ℝ)) ^ (2.0 / d) *
      (N : ℝ)⌋ < (N : ℤ) := by
    apply Int.floor_lt.mpr
    push_cast
    calc (((p : ℝ) - sp) / ((ep : ℝ) - sp + 1)) ^ (2.0 / d) * (N : ℝ)
        < 1 * (N : ℝ) := by
          apply mul_lt_mul_of_pos_right _ hN0
          push_cast at hv1
          exact hv1
      _ = (N : ℝ) := one_mul _
  simp only [estimateWordIndex]
  rw [min_eq_right hr1.le, max_eq_right hr0]
  rw [min_eq_left (by omega), max_eq_right hfl0]

/-- C1: the page estimate follows
`clamp(floor(startPage + (wordIndex/wordCount)^(0.5*densityFactor) *
(endPage - startPage + 1)), startPage, endPage)`; it always lies within
`[startPage, endPage]`, and for densityFactor 1.0, pages 1..101,
wordCount 100 and wordIndex 25 it equals 51. -/
theorem estimatePage_contract :
    (∀ (sp ep : ℤ) (N w : ℕ) (d : ℝ), sp ≤ ep → 0 < N →
      sp ≤ estimatePage sp ep N w d ∧ estimatePage sp ep N w d ≤ ep) ∧
    estimatePage 1 101 100 25 1 = 51 := by
  constructor
  · intro sp ep N w d hse hN
    simp only [estimatePage]
    exact ⟨le_max_left _ _, max_le hse (min_le_left _ _)⟩
  · obtain ⟨h, -, -⟩ :=
      estimatePage_eq 1 101 100 25 1 (by norm_num) (by norm_num) (by norm_num)
    rw [h]
    have hbase : ((25 : ℕ) : ℝ) / ((100 : ℕ) : ℝ) = 1 / 4 := by norm_num
    have hexp : (0.5 : ℝ) * 1 = 1 / 2 := by norm_num
    rw [hbase, hexp]
    have hpow : ((1 : ℝ) / 4) ^ ((1 : ℝ) / 2) = 1 / 2 := by
      have h2 : (1 : ℝ) / 4 = ((1 : ℝ) / 2) ^ ((2 : ℕ) : ℝ) := by
        rw [Real.rpow_natCast]; norm_num
      calc ((1 : ℝ) / 4) ^ ((1 : ℝ) / 2)
          = (((1 : ℝ) / 2) ^ ((2 : ℕ) : ℝ)) ^ ((1 : ℝ) / 2) := by rw [← h2]
        _ = ((1 : ℝ) / 2) ^ (((2 : ℕ) : ℝ) * ((1 : ℝ) / 2)) :=
            (Real.rpow_mul (by norm_num) _ _).symm
        _ = ((1 : ℝ) / 2) ^ (1 : ℝ) := by norm_num
        _ = 1 / 2 := Real.rpow_one _
    rw [hpow]
    have hcast : ((101 - 1 + 1 : ℤ) : ℝ) = 101 := by norm_num
    rw [hcast]
    have hfl : ⌊(1 / 2 : ℝ) * 101⌋ = 50 := by
      apply Int.floor_eq_iff.mpr
      constructor <;> norm_num
    rw [hfl]
    norm_num

/-- C1 witness: the in-range contract applied to the scenario inputs. -/
theorem estimatePage_contract_witness :
    (1 : ℤ) ≤ estimatePage 1 101 100 25 1 ∧ estimatePage 1 101 100 25 1 ≤ 101 :=
  estimatePage_contract.1 1 101 100 25 1 (by norm_num) (by norm_num)

/-- C5 amended: the round trip `estimateWordIndex ∘ estimatePage` never
overshoots the original word index, and undershoots it by at most
`(2/densityFactor) * (wordCount/totalPages) + 1` words — up to four
page-widths' worth of words plus one, not one page-width's worth. -/
theorem estimate_roundTrip_amended (sp ep : ℤ) (N w : ℕ) (d : ℝ)
    (hse : sp ≤ ep) (hw : w < N) (hd1 : 1 / 2 ≤ d) (hd2 : d ≤ 3 / 2) :
    estimateWordIndex sp ep N (estimatePage sp ep N w d) d ≤ (w : ℤ) ∧
    (w : ℝ) - (estimateWordIndex sp ep N (estimatePage sp ep N w d) d : ℝ) ≤
      2 / d * ((N : ℝ) / ((ep - sp + 1 : ℤ) : ℝ)) + 1 := by
  have hd : 0 < d := by linarith
  have hN : 0 < N := Nat.lt_of_le_of_lt (Nat.zero_le w) hw
  have hN0 : (0 : ℝ) < (N : ℝ) := by exact_mod_cast hN
  have hTz : (0 : ℤ) < ep - sp + 1 := by omega
  have hT0 : (0 : ℝ) < ((ep - sp + 1 : ℤ) : ℝ) := by exact_mod_cast hTz
  obtain ⟨hP, hK0, hK1⟩ := estimatePage_eq sp ep N w d hse hw hd
  rw [hP]
  set K : ℤ := ⌊((w : ℝ) / (N : ℝ)) ^ (0.5 * d) * ((ep - sp + 1 : ℤ) : ℝ)⌋
    with hKdef
  rw [estimateWordIndex_eq sp ep N (sp + K) d hN hd (by omega) (by omega)]
  rw [show sp + K - sp = K from by ring]
  set T : ℝ := ((ep - sp + 1 : ℤ) : ℝ) with hTdef
  set x : ℝ := (w : ℝ) / (N : ℝ) with hxdef
  set e : ℝ := 0.5 * d with hedef
  set q : ℝ := 2.0 / d with hqdef
  set u : ℝ := x ^ e with hudef
  set rel : ℝ := (K : ℝ) / T with hreldef
  have hx0 : 0 ≤ x := div_nonneg (by positivity) hN0.le
  have hx1 : x < 1 := (div_lt_one hN0).mpr (by exact_mod_cast hw)
  have he0 : 0 < e := mul_pos (by norm_num) hd
  have hu0 : 0 ≤ u := Real.rpow_nonneg hx0 e
  have hu1 : u < 1 := Real.rpow_lt_one hx0 hx1 he0
  have h20 : (2.0 : ℝ) = 2 := by norm_num
  have hq1 : 1 ≤ q := by
    rw [hqdef, h20, le_div_iff hd]
    linarith
  have heq1 : e * q = 1 := by
    rw [hedef, hqdef, h20]
    field_simp
    ring
  have hk_le : (K : ℝ) ≤ u * T := by
    rw [hKdef]
    exact Int.floor_le _
  have hk_gt : u * T < (K : ℝ) + 1 := by
    have hh := Int.lt_floor_add_one (u * T)
    rw [← hKdef] at hh
    exact_mod_cast hh
  have hrel_le_u : rel ≤ u := by
    rw [hreldef, div_le_iff hT0]
    exact hk_le
  have hrel0 : 0 ≤ rel := div_nonneg (by exact_mod_cast hK0) hT0.le
  have hurel : u - rel ≤ 1 / T := by
    rw [hreldef, sub_le_iff_le_add, div_add_div_same, le_div_iff hT0]
    linarith
  have huq : u ^ q = x := by
    rw [hudef, ← Real.rpow_mul hx0, heq1, Real.rpow_one]
  have hrelq_le : rel ^ q ≤ x := by
    rw [← huq]
    exact Real.rpow_le_rpow hrel0 hrel_le_u (by linarith)
  have hxN : x * (N : ℝ) = (w : ℝ) := by
    rw [hxdef]
    field_simp
  constructor
  · have h1 : rel ^ q * (N : ℝ) ≤ ((w : ℤ) : ℝ) := by
      push_cast
      rw [← hxN]
      exact mul_le_mul_of_nonneg_right hrelq_le hN0.le
    have h2 : ⌊rel ^ q * (N : ℝ)⌋ ≤ ⌊((w : ℤ) : ℝ)⌋ := Int.floor_le_floor h1
    rwa [Int.floor_intCast] at h2
  · have hfl : rel ^ q * (N : ℝ) - 1 < (⌊rel ^ q * (N : ℝ)⌋ : ℝ) := by
      have hh := Int.lt_floor_add_one (rel ^ q * (N : ℝ))
      linarith
    have hdiff : u ^ q - rel ^ q ≤ q * (u - rel) :=
      rpow_sub_rpow_le rel u q hrel0 hrel_le_u hu1.le hq1
    have hdiff2 : q * (u - rel) ≤ q * (1 / T) :=
      mul_le_mul_of_nonneg_left hurel (by linarith)
    have hdiff3 : (u ^ q - rel ^ q) * (N : ℝ) ≤ (q * (1 / T)) * (N : ℝ) :=
      mul_le_mul_of_nonneg_right (le_trans hdiff hdiff2) hN0.le
    have hwN : (w : ℝ) = u ^ q * (N : ℝ) := by rw [huq, hxN]
    have hfin : q * (1 / T) * (N : ℝ) = 2 / d * ((N : ℝ) / T) := by
      rw [hqdef, h20]
      ring
    linarith

/-- C5 amended witness: the bounds applied at pages 1..10, 10000 words,
word index 9000 and densityFactor 0.5. -/
theorem estimate_roundTrip_amended_witness :
    estimateWordIndex 1 10 10000 (estimatePage 1 10 10000 9000 (1 / 2)) (1 / 2) ≤
      (9000 : ℤ) ∧
    (9000 : ℝ) -
      (estimateWordIndex 1 10 10000 (estimatePage 1 10 10000 9000 (1 / 2))
        (1 / 2) : ℝ) ≤ 4001 := by
  obtain ⟨h1, h2⟩ := estimate_roundTrip_amended 1 10 10000 9000 (1 / 2)
    (by norm_num) (by norm_num) (by norm_num) (by norm_num)
  constructor
  · exact_mod_cast h1
  · have hc : ((10 - 1 + 1 : ℤ) : ℝ) = 10 := by norm_num
    rw [hc] at h2
    push_cast at h2 ⊢
    linarith

/-- C5 counterexample: with densityFactor 0.5, pages 1..10 and 10000
words, word index 9000 maps to page 10 and back to word index 6561 — a
deficit of 2439 words, exceeding even two page-widths' worth of words
(2 * 10000/10 = 2000), so the claimed ±1 page-width bound fails. -/
theorem roundTrip_counterexample :
    estimatePage 1 10 10000 9000 (1 / 2) = 10 ∧
    estimateWordIndex 1 10 10000 (estimatePage 1 10 10000 9000 (1 / 2))
      (1 / 2) = 6561 ∧
    ((9000 : ℤ) - 6561) * (10 - 1 + 1) > 2 * 10000 := by
  have hP : estimatePage 1 10 10000 9000 (1 / 2) = 10 := by
    obtain ⟨h, -, -⟩ := estimatePage_eq 1 10 10000 9000 (1 / 2)
      (by norm_num) (by norm_num) (by norm_num)
    rw [h]
    have hbase : ((9000 : ℕ) : ℝ) / ((10000 : ℕ) : ℝ) = 9 / 10 := by norm_num
    have hexp : (0.5 : ℝ) * (1 / 2) = 1 / 4 := by norm_num
    rw [hbase, hexp]
    have hlow : (9 / 10 : ℝ) ≤ (9 / 10 : ℝ) ^ ((1 : ℝ) / 4) := by
      have hh := Real.rpow_le_rpow_of_exponent_ge
        (by norm_num : (0 : ℝ) < 9 / 10) (by norm_num : (9 : ℝ) / 10 ≤ 1)
        (by norm_num : (1 : ℝ) / 4 ≤ 1)
      simpa [Real.rpow_one] using hh
    have hhigh : (9 / 10 : ℝ) ^ ((1 : ℝ) / 4) < 1 :=
      Real.rpow_lt_one (by norm_num) (by norm_num) (by norm_num)
    have hcast : ((10 - 1 + 1 : ℤ) : ℝ) = 10 := by norm_num
    rw [hcast]
    have hfl : ⌊(9 / 10 : ℝ) ^ ((1 : ℝ) / 4) * 10⌋ = 9 := by
      apply Int.floor_eq_iff.mpr
      constructor
      · push_cast
        nlinarith
      · push_cast
        nlinarith
    rw [hfl]
    norm_num
  refine ⟨hP, ?_, by norm_num⟩
  rw [hP]
  rw [estimateWordIndex_eq 1 10 10000 10 (1 / 2) (by norm_num) (by norm_num)
    (by norm_num) (by norm_num)]
  have hrel : ((10 - 1 : ℤ) : ℝ) / ((10 - 1 + 1 : ℤ) : ℝ) = 9 / 10 := by
    norm_num
  rw [hrel]
  have hq4 : (2.0 : ℝ) / (1 / 2) = ((4 : ℕ) : ℝ) := by norm_num
  rw [hq4, Real.rpow_natCast]
  have hmul : (9 / 10 : ℝ) ^ (4 : ℕ) * ((10000 : ℕ) : ℝ) = 6561 := by norm_num
  rw [hmul]
  have hc : (6561 : ℝ) = ((6561 : ℤ) : ℝ) := by norm_num
  rw [hc, Int.floor_intCast]

end PdfPlayer
